import Mathlib

/-!
Verification of the documentation indexing / vector-search core of
`dependency-context` against its specification.

The development shallowly embeds the TypeScript source (`src/vectorstore.ts`,
`src/tools/search.ts`, `src/config.ts`) in Lean:

* JavaScript strings are embedded as `List Char` (one element per UTF-16 unit
  of the source string; `String.prototype.length` becomes `List.length`).
* JavaScript numbers are embedded as real numbers `ℝ` (exact arithmetic).
* Asynchronous fallible calls (the embedding model, file reads) are embedded
  as explicit `Except` / `Option` inputs; a `try`/`catch` becomes a `match`
  on those inputs, and observable side effects (file writes, the number of
  similarity computations) are recorded in explicit run records.
-/

namespace DepCtx

/-- A JavaScript string, embedded as its list of characters. -/
abbrev Str := List Char

/-- The whitespace class used by the source's regexes (`\s`) and by
`String.prototype.trim`.  The embedding restricts JavaScript's whitespace
set to the ASCII whitespace characters. -/
def isJsWs (c : Char) : Bool :=
  c = ' ' || c = '\t' || c = '\n' || c = '\r' || c = '\x0b' || c = '\x0c'

/-- JavaScript line terminators (the characters `.` does not match and the
characters `^` / `$` anchor around in multiline mode). -/
def isLineTerm (c : Char) : Bool :=
  c = '\n' || c = '\r'

/-- The non-whitespace characters of a string, in order.  This is the measure
in which the chunker is required to preserve document content. -/
def nonWs (s : Str) : Str :=
  s.filter (fun c => !isJsWs c)

/-- `String.prototype.trim`. -/
def jsTrim (s : Str) : Str :=
  ((s.dropWhile isJsWs).reverse.dropWhile isJsWs).reverse

/-- The two-character separator `"\n\n"` the chunker inserts when it glues
text together. -/
def nl2 : Str := ['\n', '\n']

/-! ### The header-split regex

`splitIntoChunks` starts with `text.split(/^#{1,6}\s+.+$/m)`.  A match of the
regex at a line start consists of one to six `#` characters, a nonempty run
of whitespace, and a nonempty greedy run of non-line-terminator characters
ending at a line end.  Because `\s` also matches line terminators while `.`
does not, the regex backtracks over the length of the `\s+` part: the engine
uses the largest whitespace-prefix length `s ≥ 1` such that the character
right after it exists and is not a line terminator. -/

/-- Search, downward from `s₀`, for the largest candidate length `s`
(`1 ≤ s ≤ s₀`) of the `\s+` part such that `rest` has a non-line-terminator
character at index `s` for `.+` to start on. -/
def findBreak (rest : Str) : Nat → Option Nat
  | 0 => none
  | s + 1 =>
    match rest.get? (s + 1) with
    | some c => if isLineTerm c then findBreak rest s else some (s + 1)
    | none => findBreak rest s

/-- Try to match `/#{1,6}\s+.+$/` at the start of `cs` (which the caller
guarantees is a line start).  On success, return the remainder of the string
after the match. -/
def headerMatch (cs : Str) : Option Str :=
  let j := (cs.takeWhile (fun c => c = '#')).length
  if 1 ≤ j ∧ j ≤ 6 then
    let rest1 := cs.drop j
    let w := (rest1.takeWhile isJsWs).length
    if 1 ≤ w then
      match findBreak rest1 w with
      | some s => some ((rest1.drop s).dropWhile (fun c => !isLineTerm c))
      | none => none
    else none
  else none

/-- Prepend a character to the first piece of a split result. -/
def consTo (r : List Str) (c : Char) : List Str :=
  match r with
  | [] => [[c]]
  | p :: ps => (c :: p) :: ps

/-- The scanner of `text.split(/^#{1,6}\s+.+$/m)`: walk the string, and at
every line start try the header regex; a match ends the current piece and is
discarded.  `fuel` bounds the recursion (each step consumes at least one
character, so `fuel = text.length` suffices); `bol` records whether the
current position is a line start. -/
def headerSplitGo : Nat → Str → Bool → List Str
  | 0, cs, _ => [cs]
  | _ + 1, [], _ => [[]]
  | fuel + 1, c :: rest, bol =>
    if bol then
      match headerMatch (c :: rest) with
      | some r => [] :: headerSplitGo fuel r false
      | none => consTo (headerSplitGo fuel rest (isLineTerm c)) c
    else consTo (headerSplitGo fuel rest (isLineTerm c)) c

/-- `text.split(/^#{1,6}\s+.+$/m)` — the sections of a document, with the
matched header lines discarded. -/
def headerSplits (content : Str) : List Str :=
  headerSplitGo content.length content true

/-- The scanner of `split.split(/\n{2,}/)`: a maximal run of two or more
newlines separates paragraphs. -/
def paragraphSplitGo : Nat → Str → List Str
  | 0, cs => [cs]
  | _ + 1, [] => [[]]
  | fuel + 1, c :: rest =>
    if c = '\n' then
      match rest with
      | c2 :: _ =>
        if c2 = '\n' then [] :: paragraphSplitGo fuel (rest.dropWhile (fun d => d = '\n'))
        else consTo (paragraphSplitGo fuel rest) c
      | [] => consTo (paragraphSplitGo fuel rest) c
    else consTo (paragraphSplitGo fuel rest) c

/-- `split.split(/\n{2,}/)`. -/
def paragraphSplit (s : Str) : List Str :=
  paragraphSplitGo s.length s

/-! ### The chunk-accumulation loop of `splitIntoChunks`

The emitted chunks are accumulated most-recent-first (`revChunks`), because
the source mutates `chunks[chunks.length - 1]` when it merges an undersized
section into the previously emitted chunk; the accumulator is reversed at
the end. -/

/-- The inner paragraph loop of the oversized-section branch: greedily
accumulate paragraphs into `cur`, flushing `cur` as a chunk when the next
paragraph would overflow `maxS`; a flushed buffer is pushed only when it is
nonempty (`currentChunk` is truthy) and reached `minS`. -/
def paraLoop (minS maxS : Nat) : List Str → Str → List Str → List Str
  | [], cur, revChunks =>
    if cur ≠ [] ∧ minS ≤ cur.length then jsTrim cur :: revChunks else revChunks
  | p :: ps, cur, revChunks =>
    if (jsTrim p).length = 0 then paraLoop minS maxS ps cur revChunks
    else if cur.length + p.length ≤ maxS then
      paraLoop minS maxS ps (cur ++ (if cur = [] then [] else nl2) ++ p) revChunks
    else
      paraLoop minS maxS ps p
        (if cur ≠ [] ∧ minS ≤ cur.length then jsTrim cur :: revChunks else revChunks)

/-- The body of `for (let split of headerSplits)`: process one section.
`split.length` is the untrimmed section length, exactly as in the source. -/
def processSection (minS maxS : Nat) (revChunks : List Str) (split : Str) : List Str :=
  if (jsTrim split).length = 0 then revChunks
  else if split.length ≤ maxS then
    if minS ≤ split.length then jsTrim split :: revChunks
    else
      match revChunks with
      | last :: rest =>
        if last ≠ [] ∧ last.length + split.length ≤ maxS then
          (last ++ nl2 ++ jsTrim split) :: rest
        else jsTrim split :: last :: rest
      | [] => jsTrim split :: revChunks
  else paraLoop minS maxS (paragraphSplit split) [] revChunks

/-- A raw documentation file handed to the indexing pipeline. -/
structure Document where
  content : Str
  path : Str
  filename : Str
deriving DecidableEq, Repr

/-- `splitIntoChunks(document, minSize, maxSize)`. -/
def splitIntoChunks (document : Document) (minS maxS : Nat) : List Str :=
  ((headerSplits document.content).foldl (processSection minS maxS) []).reverse

/-- Default `minSize` of `splitIntoChunks`. -/
def defaultMinSize : Nat := 800

/-- Default `maxSize` of `splitIntoChunks`. -/
def defaultMaxSize : Nat := 8000

/-! ### Ghost instrumentation of the chunker

`paraEvents` / `sectionEvents` record, in document order, the text buffers
the chunker decides about, each tagged with whether its content reaches the
emitted chunks (`true`) or is silently dropped by the undersized-paragraph
policy of the oversized-section branch (`false`).  They repeat the control
flow of `paraLoop` / `processSection` exactly, but record the buffers
instead of accumulating chunks. -/

/-- The flush decisions of the oversized-section paragraph loop. -/
def paraEvents (minS maxS : Nat) : List Str → Str → List (Str × Bool)
  | [], cur =>
    if cur = [] then [] else [(cur, decide (minS ≤ cur.length))]
  | p :: ps, cur =>
    if (jsTrim p).length = 0 then paraEvents minS maxS ps cur
    else if cur.length + p.length ≤ maxS then
      paraEvents minS maxS ps (cur ++ (if cur = [] then [] else nl2) ++ p)
    else
      (if cur = [] then [] else [(cur, decide (minS ≤ cur.length))])
        ++ paraEvents minS maxS ps p

/-- The buffers one section contributes, tagged kept/dropped. -/
def sectionEvents (minS maxS : Nat) (split : Str) : List (Str × Bool) :=
  if (jsTrim split).length = 0 then []
  else if split.length ≤ maxS then [(split, true)]
  else paraEvents minS maxS (paragraphSplit split) []

/-- All buffers of a document, in document order, tagged kept/dropped. -/
def docEvents (document : Document) (minS maxS : Nat) : List (Str × Bool) :=
  ((headerSplits document.content).map (sectionEvents minS maxS)).flatten

/-- The kept buffers of a tagged event list. -/
def keptContents (evs : List (Str × Bool)) : List Str :=
  (evs.filter (fun e => e.2)).map Prod.fst

/-! ### Data model (`src/config.ts`, `src/vectorstore.ts`) -/

/-- The configuration surface of `src/config.ts`. -/
structure Config where
  port : Nat
  githubToken : Option Str
  embeddingModel : Str
  storageDir : Str
  debugMode : Bool
  minChunkSize : Nat
  maxChunkSize : Nat
  chunksReturned : Nat
deriving DecidableEq, Repr

/-- The `defaultConfig` of `src/config.ts`. -/
def defaultConfig : Config :=
  { port := 3000
    githubToken := none
    embeddingModel := "Xenova/all-MiniLM-L6-v2".data
    storageDir := ".dependency-context".data
    debugMode := false
    minChunkSize := 800
    maxChunkSize := 8000
    chunksReturned := 5 }

/-- The `metadata` field of a vector-store entry. -/
structure Metadata where
  repository : Str
  file : Str
  dependency : Str
deriving DecidableEq, Repr

/-- One persisted record (`VectorStoreEntry`).  Embedding values are
embedded as real numbers. -/
structure VectorStoreEntry where
  chunk : Str
  embedding : List ℝ
  metadata : Metadata

/-- The persisted store (`VectorStore`): an object with a single field
`entries`. -/
structure VectorStore where
  entries : List VectorStoreEntry

/-- One search result of `searchVectorStore`. -/
structure SearchResult where
  text_chunk : Str
  source_repository : Str
  source_file : Str
  similarity_score : ℝ

/-! ### `cosineSimilarity` and the ranking of `searchVectorStore` -/

/-- The dot-product accumulator of `cosineSimilarity`'s loop. -/
def dotProduct (a b : List ℝ) : ℝ :=
  (List.zipWith (fun x y => x * y) a b).sum

/-- The `normA` / `normB` accumulators: the sum of squares of the first
`n` coordinates. -/
def sumSq (v : List ℝ) : ℝ :=
  (v.map (fun x => x * x)).sum

/-- `cosineSimilarity(vecA, vecB)`: the loop runs over the indices of
`vecA`, so `normB` only sums the first `vecA.length` coordinates of `vecB`.
The embedding assumes `vecB` is at least as long as `vecA` (the
fixed-dimension invariant of the data model); the source would produce `NaN`
otherwise. -/
noncomputable def cosineSimilarity (vecA vecB : List ℝ) : ℝ :=
  dotProduct vecA vecB /
    (Real.sqrt (sumSq vecA) * Real.sqrt (sumSq (vecB.take vecA.length)))

/-- The result object built for one store entry. -/
noncomputable def mkSearchResult (queryEmbedding : List ℝ) (e : VectorStoreEntry) :
    SearchResult :=
  { text_chunk := e.chunk
    source_repository := e.metadata.repository
    source_file := e.metadata.file
    similarity_score := cosineSimilarity queryEmbedding e.embedding }

/-- The repository-context filter: keep results whose repository or file
contains the context as a substring; an absent or empty context (falsy in
the source) disables the filter. -/
def filterByContext (ctx : Option Str) (rs : List SearchResult) : List SearchResult :=
  match ctx with
  | none => rs
  | some c =>
    if c = [] then rs
    else rs.filter (fun r =>
      decide (List.IsInfix c r.source_repository) || decide (List.IsInfix c r.source_file))

/-- Stable insertion of a result into a list sorted by descending score: the
new element goes before the first strictly smaller score and after equal
scores already present later in the scan — together with `sortByScoreDesc`
this realizes the stable descending sort
`results.sort((a, b) => b.similarity_score - a.similarity_score)`. -/
noncomputable def insertDesc (x : SearchResult) : List SearchResult → List SearchResult
  | [] => [x]
  | y :: ys =>
    if y.similarity_score ≤ x.similarity_score then x :: y :: ys
    else y :: insertDesc x ys

/-- The stable descending sort by `similarity_score`. -/
noncomputable def sortByScoreDesc : List SearchResult → List SearchResult
  | [] => []
  | a :: rest => insertDesc a (sortByScoreDesc rest)

/-- The scored and context-filtered result list, in store (insertion)
order, before sorting and truncation. -/
noncomputable def consideredResults (q : List ℝ) (vs : VectorStore) (ctx : Option Str) :
    List SearchResult :=
  filterByContext ctx (vs.entries.map (mkSearchResult q))

/-! ### The search pipeline (`searchVectorStore`, `searchDependencyDocs`)

The two fallible inputs of `searchVectorStore` are passed in explicitly:
`embedResult` is the outcome of `generateEmbedding(query)`, and `storeFile`
describes the persisted file (`none` = the file does not exist, `some
(.error _)` = `readJson` fails, `some (.ok vs)` = its parsed contents).  The
function's `try`/`catch` turns either failure into an empty result list. -/

/-- The ways a search can fail internally. -/
inductive SearchFailure where
  | embeddingFailure
  | storageReadFailure
deriving DecidableEq, Repr

/-- The observable outcome of one `searchVectorStore` call: the returned
results, the number of `cosineSimilarity` invocations (ghost, to express
that the ranking step ran or did not run), and whether the `catch` handler
ran (ghost; the source then only logs and returns `[]`). -/
structure SearchRun where
  results : List SearchResult
  simCalls : Nat
  caught : Bool

/-- `searchVectorStore(projectPath, query, repositoryContext, config)`.
Note the truncation is the literal `results.slice(0, 5)` of the source; the
`config` argument is accepted (the source forwards it to
`generateEmbedding`) but does not influence the result count. -/
noncomputable def searchVectorStoreRun (embedResult : Except SearchFailure (List ℝ))
    (storeFile : Option (Except SearchFailure VectorStore)) (ctx : Option Str)
    (_config : Config) : SearchRun :=
  match embedResult with
  | .error _ => { results := [], simCalls := 0, caught := true }
  | .ok q =>
    match storeFile with
    | none => { results := [], simCalls := 0, caught := false }
    | some (.error _) => { results := [], simCalls := 0, caught := true }
    | some (.ok vs) =>
      { results := (sortByScoreDesc (consideredResults q vs ctx)).take 5
        simCalls := vs.entries.length
        caught := false }

/-- The result list of `searchVectorStore`. -/
noncomputable def searchVectorStore (embedResult : Except SearchFailure (List ℝ))
    (storeFile : Option (Except SearchFailure VectorStore)) (ctx : Option Str)
    (config : Config) : List SearchResult :=
  (searchVectorStoreRun embedResult storeFile ctx config).results

/-- `searchVectorStore` as seen by its caller: the source catches every
internal error, logs it, and resolves normally, so the call never rejects. -/
noncomputable def searchVectorStoreExc (embedResult : Except SearchFailure (List ℝ))
    (storeFile : Option (Except SearchFailure VectorStore)) (ctx : Option Str)
    (config : Config) : Except Str (List SearchResult) :=
  .ok (searchVectorStore embedResult storeFile ctx config)

/-- The JSON payload `searchDependencyDocs` serializes. -/
structure SearchResponse where
  results : List SearchResult
  error : Option Str

/-- `searchDependencyDocs`: returns `{ results }` when the inner search
resolves, and `{ results: [], error }` only when something in its own `try`
block throws. -/
noncomputable def searchDependencyDocs (embedResult : Except SearchFailure (List ℝ))
    (storeFile : Option (Except SearchFailure VectorStore)) (ctx : Option Str)
    (config : Config) : SearchResponse :=
  match searchVectorStoreExc embedResult storeFile ctx config with
  | .ok rs => { results := rs, error := none }
  | .error e => { results := [], error := some e }

/-! ### The indexing pipeline (`indexDocumentation`)

The embedding model is passed in as a deterministic oracle
`embed : Str → Except Str (List ℝ)` giving the outcome of
`generateEmbedding` on each chunk text (errors carry a message).  The
existing store file is `none` when absent.  The run records the sequence of
`writeJson` payloads (the source performs a single write, after the
document loop) and the resolved/rejected outcome of the call. -/

/-- The entry pushed for one chunk. -/
def mkEntry (repoUrl depName docPath chunk : Str) (emb : List ℝ) : VectorStoreEntry :=
  { chunk := chunk
    embedding := emb
    metadata := { repository := repoUrl, file := docPath, dependency := depName } }

/-- The inner chunk loop of `indexDocumentation`: skip chunks whose trim is
empty, embed the rest, and push an entry per chunk; an embedding error
rejects. -/
def processChunks (embed : Str → Except Str (List ℝ)) (repoUrl depName docPath : Str) :
    List Str → List VectorStoreEntry → Except Str (List VectorStoreEntry)
  | [], acc => .ok acc
  | c :: cs, acc =>
    if (jsTrim c).length = 0 then processChunks embed repoUrl depName docPath cs acc
    else
      match embed c with
      | .error e => .error e
      | .ok emb =>
        processChunks embed repoUrl depName docPath cs
          (acc ++ [mkEntry repoUrl depName docPath c emb])

/-- The document loop of `indexDocumentation`: chunk each document with the
default bounds and process its chunks; an error anywhere rejects the whole
loop. -/
def processDocs (embed : Str → Except Str (List ℝ)) (repoUrl depName : Str) :
    List Document → List VectorStoreEntry → Except Str (List VectorStoreEntry)
  | [], acc => .ok acc
  | d :: ds, acc =>
    match processChunks embed repoUrl depName d.path
        (splitIntoChunks d defaultMinSize defaultMaxSize) acc with
    | .error e => .error e
    | .ok acc' => processDocs embed repoUrl depName ds acc'

/-- The observable outcome of one `indexDocumentation` call: the sequence of
store payloads written, and the resolved or rejected outcome (the source
catches, logs and rethrows). -/
structure IndexRun where
  writes : List VectorStore
  outcome : Except Str Unit

/-- `indexDocumentation(projectPath, dependency, repository, documents,
config)`: load the existing store (an absent file yields `{ entries: [] }`),
append one entry per embedded chunk of every document, and write the
resulting store once, at the end; any embedding error aborts the call before
the write. -/
def indexDocumentation (embed : Str → Except Str (List ℝ))
    (existing : Option VectorStore) (repoUrl depName : Str)
    (documents : List Document) : IndexRun :=
  let init := match existing with
    | some vs => vs
    | none => { entries := [] }
  match processDocs embed repoUrl depName documents init.entries with
  | .ok entries => { writes := [{ entries := entries }], outcome := .ok () }
  | .error e => { writes := [], outcome := .error e }

/-- The prefix of a document's chunks that embeds cleanly, as entries; the
spec's per-document isolation claim says processing resumes with the next
document after the first failing chunk. -/
def chunkEntriesUntilFailure (embed : Str → Except Str (List ℝ))
    (repoUrl depName docPath : Str) : List Str → List VectorStoreEntry
  | [] => []
  | c :: cs =>
    if (jsTrim c).length = 0 then chunkEntriesUntilFailure embed repoUrl depName docPath cs
    else
      match embed c with
      | .error _ => []
      | .ok emb =>
        mkEntry repoUrl depName docPath c emb
          :: chunkEntriesUntilFailure embed repoUrl depName docPath cs

/-- The first embedding error hit while processing a chunk list. -/
def firstEmbedFailure (embed : Str → Except Str (List ℝ)) : List Str → Option Str
  | [] => none
  | c :: cs =>
    if (jsTrim c).length = 0 then firstEmbedFailure embed cs
    else
      match embed c with
      | .error e => some e
      | .ok _ => firstEmbedFailure embed cs

/-! ### The persisted file (`writeJson` / `readJson`)

The store file is a JSON document; `writeJson` serializes the structure the
source builds (an object with an `entries` array of `{ chunk, embedding,
metadata: { repository, file, dependency } }` objects) and `readJson` parses
it back.  The JSON value is modelled as a tree with real-valued numbers, and
the decoder reconstructs a `VectorStore` field by field, as the TypeScript
reader consumes the parsed object. -/

/-- A JSON value. -/
inductive Json where
  | str : Str → Json
  | num : ℝ → Json
  | arr : List Json → Json
  | obj : List (Str × Json) → Json

/-- Serialize one entry. -/
def encodeEntry (e : VectorStoreEntry) : Json :=
  .obj [("chunk".data, .str e.chunk),
        ("embedding".data, .arr (e.embedding.map .num)),
        ("metadata".data, .obj [("repository".data, .str e.metadata.repository),
                                ("file".data, .str e.metadata.file),
                                ("dependency".data, .str e.metadata.dependency)])]

/-- Serialize the store. -/
def encodeStore (vs : VectorStore) : Json :=
  .obj [("entries".data, .arr (vs.entries.map encodeEntry))]

/-- Read a string field of a parsed object. -/
def getStr (j : Json) (key : Str) : Option Str :=
  match j with
  | .obj fields =>
    match fields.lookup key with
    | some (.str s) => some s
    | _ => none
  | _ => none

/-- Read a number out of a parsed array element. -/
def asNum (j : Json) : Option ℝ :=
  match j with
  | .num x => some x
  | _ => none

/-- Decode the elements of the `embedding` array. -/
def decodeNums : List Json → Option (List ℝ)
  | [] => some []
  | j :: js =>
    match asNum j, decodeNums js with
    | some x, some xs => some (x :: xs)
    | _, _ => none

/-- Decode one entry of the `entries` array. -/
def decodeEntry (j : Json) : Option VectorStoreEntry :=
  match j with
  | .obj fields =>
    match fields.lookup "chunk".data, fields.lookup "embedding".data,
        fields.lookup "metadata".data with
    | some (.str chunk), some (.arr embArr), some meta =>
      match decodeNums embArr, getStr meta "repository".data, getStr meta "file".data,
          getStr meta "dependency".data with
      | some emb, some repo, some file, some dep =>
        some { chunk := chunk, embedding := emb,
               metadata := { repository := repo, file := file, dependency := dep } }
      | _, _, _, _ => none
    | _, _, _ => none
  | _ => none

/-- Decode the elements of the `entries` array. -/
def decodeEntries : List Json → Option (List VectorStoreEntry)
  | [] => some []
  | j :: js =>
    match decodeEntry j, decodeEntries js with
    | some e, some es => some (e :: es)
    | _, _ => none

/-- Decode a parsed store file. -/
def decodeStore (j : Json) : Option VectorStore :=
  match j with
  | .obj fields =>
    match fields.lookup "entries".data with
    | some (.arr entryArr) =>
      match decodeEntries entryArr with
      | some entries => some { entries := entries }
      | none => none
    | _ => none
  | _ => none

/-- Load a store file as `indexDocumentation` does: an absent file yields
the empty store, a present file is parsed. -/
def loadVectorStore (file : Option Json) : Option VectorStore :=
  match file with
  | none => some { entries := [] }
  | some j => decodeStore j

/-- The store-append step of `indexDocumentation`, at file granularity:
load, concatenate the new records, serialize the result. -/
def appendVectorStore (file : Option Json) (newRecords : List VectorStoreEntry) :
    Option Json :=
  (loadVectorStore file).map (fun vs => encodeStore { entries := vs.entries ++ newRecords })

/-! ### Claim statements and concrete scenario inputs

The remaining definitions are the frozen claims stated as propositions
(for the claims the code falsifies) and the concrete stores, documents
and oracles the counterexamples and witnesses instantiate them with. -/

/-- A store entry used by the concrete scenarios. -/
def testEntry : VectorStoreEntry :=
  mkEntry "https://github.com/test/repo".data "test-package".data "/file.md".data
    "Test chunk".data [1]

/-- A store holding ten records. -/
def store10 : VectorStore := { entries := List.replicate 10 testEntry }

/-- The default configuration with `chunksReturned` set to `8`. -/
def cfg8 : Config := { defaultConfig with chunksReturned := 8 }

/-- Claim C2 as stated: any embedding or store-read failure yields empty
results together with a non-empty error indication. -/
def c2ClaimAsStated : Prop :=
  ∀ (embedResult : Except SearchFailure (List ℝ))
    (storeFile : Option (Except SearchFailure VectorStore)) (ctx : Option Str)
    (config : Config),
    ((∃ e, embedResult = .error e) ∨ (∃ e, storeFile = some (.error e))) →
      (searchDependencyDocs embedResult storeFile ctx config).results = [] ∧
      (searchDependencyDocs embedResult storeFile ctx config).error ≠ none

/-- A one-chunk document whose chunk is `"x"`. -/
def docX : Document := { content := "x".data, path := "/x.md".data, filename := "x.md".data }

/-- A one-chunk document whose chunk is `"y"`. -/
def docY : Document := { content := "y".data, path := "/y.md".data, filename := "y.md".data }

/-- An embedding oracle that fails on the chunk `"x"` and succeeds
elsewhere. -/
def embedFailX : Str → Except Str (List ℝ) :=
  fun c => if c = "x".data then .error "embed failed".data else .ok [1]

/-- An embedding oracle that always fails. -/
def embedNever : Str → Except Str (List ℝ) :=
  fun _ => .error "model load failed".data

/-- Claim C3 as stated: per-document failure isolation — the indexing run
always writes a store holding, for every document, the entries of that
document's chunks up to its first embedding failure, so a failure in one
document leaves the other documents' entries in place. -/
def c3ClaimAsStated : Prop :=
  ∀ (embed : Str → Except Str (List ℝ)) (existing : Option VectorStore)
    (repoUrl depName : Str) (documents : List Document),
    (indexDocumentation embed existing repoUrl depName documents).writes =
      [{ entries :=
          (match existing with | some vs => vs.entries | none => []) ++
          (documents.map (fun d =>
            chunkEntriesUntilFailure embed repoUrl depName d.path
              (splitIntoChunks d defaultMinSize defaultMaxSize))).flatten }]

/-- Non-increasing score order between two results. -/
def scoreGe (a b : SearchResult) : Prop :=
  b.similarity_score ≤ a.similarity_score

/-- The Boolean test for a given score value, used to express tie order. -/
noncomputable def scoreEq (s : ℝ) (r : SearchResult) : Bool :=
  decide (r.similarity_score = s)

/-- The score bound every search result must satisfy. -/
def inSimRange (r : SearchResult) : Prop :=
  -1 ≤ r.similarity_score ∧ r.similarity_score ≤ 1

/-- The non-whitespace content of a reversed chunk accumulator. -/
def revNonWs (rev : List Str) : Str :=
  nonWs rev.reverse.flatten

/-- Claim C4, amended: every chunk is nonempty, the chunker's buffers cover
(in order, and up to whitespace) exactly the document content remaining
after the header-line split — header lines themselves are discarded — and
the concatenated chunks carry exactly the content of the kept buffers, i.e.
only the buffers dropped by the undersized-paragraph policy are lost. -/
def c4AmendedProp (d : Document) (minS maxS : Nat) : Prop :=
  (∀ c ∈ splitIntoChunks d minS maxS, 0 < c.length) ∧
  nonWs ((docEvents d minS maxS).map Prod.fst).flatten =
    nonWs (headerSplits d.content).flatten ∧
  nonWs (splitIntoChunks d minS maxS).flatten =
    nonWs (keptContents (docEvents d minS maxS)).flatten

/-- Claim C4 as stated: as `c4AmendedProp`, but requiring the buffers to
cover the non-whitespace content of the whole document rather than of the
document minus its header lines. -/
def c4ClaimAsStated : Prop :=
  ∀ (d : Document) (minS maxS : Nat), minS < maxS →
    (∀ c ∈ splitIntoChunks d minS maxS, 0 < c.length) ∧
    nonWs ((docEvents d minS maxS).map Prod.fst).flatten = nonWs d.content ∧
    nonWs (splitIntoChunks d minS maxS).flatten =
      nonWs (keptContents (docEvents d minS maxS)).flatten

/-- A document starting with a markdown header line. -/
def dHeader : Document :=
  { content := "# T\nabcd".data, path := "/h.md".data, filename := "h.md".data }

/-- Claim C6 as stated: in the undersized-section branch (trimmed section
nonempty and shorter than `min_size`) with a previously emitted chunk, the
section is merged exactly when the resulting combined chunk stays within
`max_size`, and is emitted standalone otherwise. -/
def c6ClaimAsStated : Prop :=
  ∀ (minS maxS : Nat) (last : Str) (rest : List Str) (split : Str),
    minS < maxS →
    jsTrim split ≠ [] →
    (jsTrim split).length < minS →
    processSection minS maxS (last :: rest) split =
      (if (last ++ nl2 ++ jsTrim split).length ≤ maxS
       then (last ++ nl2 ++ jsTrim split) :: rest
       else jsTrim split :: last :: rest)

/-- Claim C6, amended: the code's undersized branch triggers on the
untrimmed section length (`split.length < minS`, `split.length ≤ maxS`);
with a previously emitted chunk the trimmed section is appended exactly when
the previous chunk is nonempty and `lastChunk.length + split.length ≤
max_size` — a guard over the untrimmed length that ignores the two-character
separator, so the merged chunk may exceed `max_size` — and is emitted
standalone otherwise; in both cases no content is discarded. -/
def c6AmendedProp (minS maxS : Nat) (last : Str) (rest : List Str) (split : Str) : Prop :=
  processSection minS maxS (last :: rest) split =
    (if last ≠ [] ∧ last.length + split.length ≤ maxS
     then (last ++ nl2 ++ jsTrim split) :: rest
     else jsTrim split :: last :: rest) ∧
  revNonWs (processSection minS maxS (last :: rest) split) =
    revNonWs (last :: rest) ++ nonWs split

/-! ## Helper lemmas about the ranking -/

theorem length_insertDesc (x : SearchResult) (l : List SearchResult) :
    (insertDesc x l).length = l.length + 1 := by
  induction l with
  | nil => rfl
  | cons y ys ih =>
    by_cases h : y.similarity_score ≤ x.similarity_score <;>
      simp [insertDesc, h, ih]

theorem length_sortByScoreDesc (l : List SearchResult) :
    (sortByScoreDesc l).length = l.length := by
  induction l with
  | nil => rfl
  | cons a rest ih => simp [sortByScoreDesc, length_insertDesc, ih]

/-! ## Claim C1 -/

/-- Claim C1 (code bug): searching a store of 10 records with
`chunksReturned = 8` and no filter returns 5 results, not the 8 the claim
(and the repository's own test suite, CLI help and configuration comments)
promise: `searchVectorStore` truncates with the literal `slice(0, 5)` and
never reads `config.chunksReturned`. -/
theorem claim_C1_code_bug :
    (searchVectorStore (.ok [(1 : ℝ)]) (some (.ok store10)) none cfg8).length = 5 := by
  simp [searchVectorStore, searchVectorStoreRun, consideredResults, filterByContext,
    length_sortByScoreDesc, store10]

/-! ## Claim C2 -/

/-- Claim C2 is false on the code: when the query embedding fails,
`searchVectorStore` catches the error internally and resolves with `[]`, so
`searchDependencyDocs` serializes `{ results: [] }` with no `error` field. -/
theorem claim_C2_counterexample : ¬ c2ClaimAsStated := by
  intro h
  exact (h (.error .embeddingFailure) none none defaultConfig (Or.inl ⟨_, rfl⟩)).2 rfl

/-- Claim C2 as amended: on an embedding or store-read failure the search
returns an empty result list — never a partial one — but the response
carries no error indication (`error = none`); the failure is only logged. -/
theorem claim_C2 :
    ∀ (embedResult : Except SearchFailure (List ℝ))
      (storeFile : Option (Except SearchFailure VectorStore)) (ctx : Option Str)
      (config : Config),
      ((∃ e, embedResult = .error e) ∨ (∃ e, storeFile = some (.error e))) →
        searchVectorStore embedResult storeFile ctx config = [] ∧
        searchDependencyDocs embedResult storeFile ctx config =
          { results := [], error := none } := by
  intro embedResult storeFile ctx config h
  match embedResult with
  | .error e => exact ⟨rfl, rfl⟩
  | .ok q =>
    rcases h with ⟨e, he⟩ | ⟨e, he⟩
    · exact absurd he (by simp)
    · subst he
      exact ⟨rfl, rfl⟩

/-- Witness for C2 at a concrete failing input. -/
theorem claim_C2_witness :
    searchVectorStore (.error .embeddingFailure) none none defaultConfig = [] ∧
    searchDependencyDocs (.error .embeddingFailure) none none defaultConfig =
      { results := [], error := none } :=
  claim_C2 (.error .embeddingFailure) none none defaultConfig (Or.inl ⟨_, rfl⟩)

/-! ## Claim C8 -/

/-- Claim C8: when the store file does not exist, the search returns an
empty result list, the ranking step is never invoked (`simCalls = 0`), no
exception escapes (the `catch` handler does not even run), and the response
is a successful empty one with no error flag. -/
theorem claim_C8 :
    ∀ (q : List ℝ) (ctx : Option Str) (config : Config),
      searchVectorStoreRun (.ok q) none ctx config =
        { results := [], simCalls := 0, caught := false } ∧
      searchDependencyDocs (.ok q) none ctx config =
        { results := [], error := none } := by
  intro q ctx config
  exact ⟨rfl, rfl⟩

/-! ## Claims C3 and C10 -/

/-- Claim C3 is false on the code: with documents `x` and `y` where only
`x`'s chunk fails to embed, `indexDocumentation` rethrows and writes
nothing at all — `y` is never processed. -/
theorem claim_C3_counterexample : ¬ c3ClaimAsStated := by
  intro h
  have h2 := h embedFailX none "r".data "d".data [docX, docY]
  rw [show (indexDocumentation embedFailX none "r".data "d".data [docX, docY]).writes = []
    from rfl] at h2
  simp at h2

theorem processChunks_error (embed : Str → Except Str (List ℝ)) (repoUrl depName docPath : Str)
    (cs : List Str) (e : Str) :
    firstEmbedFailure embed cs = some e →
    ∀ acc, processChunks embed repoUrl depName docPath cs acc = .error e := by
  induction cs with
  | nil => intro h; exact absurd h (by simp [firstEmbedFailure])
  | cons c cs ih =>
    intro h acc
    by_cases hskip : (jsTrim c).length = 0
    · rw [firstEmbedFailure, if_pos hskip] at h
      rw [processChunks, if_pos hskip]
      exact ih h acc
    · rw [firstEmbedFailure, if_neg hskip] at h
      rw [processChunks, if_neg hskip]
      match hemb : embed c with
      | .error e' =>
        rw [hemb] at h
        simp at h
        simp [h]
      | .ok emb =>
        rw [hemb] at h
        exact ih h _

/-- Claim C3 as amended: if embedding one chunk of the first failing
document fails, the entire `indexDocumentation` call rejects with that
error and writes nothing — the document's remaining chunks, the remaining
documents of the same call, and the store file are all left untouched
(isolation happens per dependency in the caller, not per document). -/
theorem claim_C3 :
    ∀ (embed : Str → Except Str (List ℝ)) (existing : Option VectorStore)
      (repoUrl depName : Str) (d : Document) (ds : List Document) (e : Str),
      firstEmbedFailure embed (splitIntoChunks d defaultMinSize defaultMaxSize) = some e →
      indexDocumentation embed existing repoUrl depName (d :: ds) =
        { writes := [], outcome := .error e } := by
  intro embed existing repoUrl depName d ds e h
  have hc := processChunks_error embed repoUrl depName d.path _ e h
  simp only [indexDocumentation, processDocs, hc]

/-- Witness for C3: the concrete two-document run where `x` fails. -/
theorem claim_C3_witness :
    firstEmbedFailure embedFailX (splitIntoChunks docX defaultMinSize defaultMaxSize) =
      some "embed failed".data ∧
    indexDocumentation embedFailX none "r".data "d".data [docX, docY] =
      { writes := [], outcome := .error "embed failed".data } :=
  ⟨rfl, claim_C3 embedFailX none "r".data "d".data docX [docY] "embed failed".data rfl⟩

/-- Claim C10: `indexDocumentation` writes the store file at most once; when
any embedding call rejects, the run rejects and performs no write at all,
leaving the persisted store exactly as it was; a resolved run performs
exactly one write. -/
theorem claim_C10 :
    ∀ (embed : Str → Except Str (List ℝ)) (existing : Option VectorStore)
      (repoUrl depName : Str) (documents : List Document),
      (indexDocumentation embed existing repoUrl depName documents).writes.length ≤ 1 ∧
      (∀ e, (indexDocumentation embed existing repoUrl depName documents).outcome = .error e →
        (indexDocumentation embed existing repoUrl depName documents).writes = []) ∧
      (∀ u, (indexDocumentation embed existing repoUrl depName documents).outcome = .ok u →
        ∃ vs, (indexDocumentation embed existing repoUrl depName documents).writes = [vs]) := by
  intro embed existing repoUrl depName documents
  rcases hp : processDocs embed repoUrl depName documents
      (match existing with | some vs => vs | none => { entries := [] }).entries with e | entries
  · refine ⟨?_, ?_, ?_⟩ <;> simp [indexDocumentation, hp]
  · refine ⟨?_, ?_, ?_⟩ <;> simp [indexDocumentation, hp]

/-- Witness for C10: a run whose embedding always fails writes nothing. -/
theorem claim_C10_witness :
    (indexDocumentation embedNever none "r".data "d".data [docX]).writes = [] :=
  (claim_C10 embedNever none "r".data "d".data [docX]).2.1 "model load failed".data rfl

/-! ## Claim C9 -/

theorem decodeNums_map (l : List ℝ) : decodeNums (l.map .num) = some l := by
  induction l with
  | nil => rfl
  | cons x xs ih => simp [decodeNums, asNum, ih]

theorem decodeEntry_encodeEntry (e : VectorStoreEntry) :
    decodeEntry (encodeEntry e) = some e := by
  simp [decodeEntry, encodeEntry, getStr, decodeNums_map, List.lookup]

theorem decodeEntries_map (l : List VectorStoreEntry) :
    decodeEntries (l.map encodeEntry) = some l := by
  induction l with
  | nil => rfl
  | cons e es ih => simp [decodeEntries, decodeEntry_encodeEntry, ih]

theorem decodeStore_encodeStore (vs : VectorStore) :
    decodeStore (encodeStore vs) = some vs := by
  simp [decodeStore, encodeStore, decodeEntries_map, List.lookup]

/-- Claim C9: appending records to the persisted store and loading it back
reconstructs every appended record field for field — chunk text, all three
metadata fields, and every embedding value exactly (the embedding represents
numbers as reals, so fidelity is exact, in particular at least
single-precision).  Both the append-to-existing-file and the
first-ever-write cases round-trip. -/
theorem claim_C9 (vs : VectorStore) (newRecords : List VectorStoreEntry) :
    (appendVectorStore (some (encodeStore vs)) newRecords).bind decodeStore =
      some { entries := vs.entries ++ newRecords } ∧
    (appendVectorStore none newRecords).bind decodeStore =
      some { entries := newRecords } := by
  constructor
  · simp [appendVectorStore, loadVectorStore, decodeStore_encodeStore]
  · simp [appendVectorStore, loadVectorStore, decodeStore_encodeStore]

/-! ## Claim C5 -/

theorem mem_insertDesc {x y : SearchResult} {l : List SearchResult} :
    y ∈ insertDesc x l ↔ y = x ∨ y ∈ l := by
  induction l with
  | nil => simp [insertDesc]
  | cons z zs ih =>
    by_cases h : z.similarity_score ≤ x.similarity_score
    · rw [insertDesc, if_pos h]
      simp [or_comm, or_assoc, or_left_comm]
    · rw [insertDesc, if_neg h]
      simp [ih]
      tauto

theorem mem_sortByScoreDesc {y : SearchResult} {l : List SearchResult} :
    y ∈ sortByScoreDesc l → y ∈ l := by
  induction l with
  | nil => simp [sortByScoreDesc]
  | cons a rest ih =>
    intro h
    rw [sortByScoreDesc] at h
    rcases mem_insertDesc.mp h with rfl | h2
    · exact List.mem_cons_self _ _
    · exact List.mem_cons_of_mem _ (ih h2)

theorem pairwise_insertDesc (x : SearchResult) (l : List SearchResult)
    (hl : l.Pairwise scoreGe) : (insertDesc x l).Pairwise scoreGe := by
  induction l with
  | nil => simp [insertDesc]
  | cons y ys ih =>
    rcases List.pairwise_cons.mp hl with ⟨hy, hys⟩
    by_cases h : y.similarity_score ≤ x.similarity_score
    · rw [insertDesc, if_pos h]
      refine List.pairwise_cons.mpr ⟨?_, hl⟩
      intro z hz
      rcases List.mem_cons.mp hz with rfl | hz'
      · exact h
      · exact le_trans (hy z hz') h
    · rw [insertDesc, if_neg h]
      refine List.pairwise_cons.mpr ⟨?_, ih hys⟩
      intro z hz
      rcases mem_insertDesc.mp hz with rfl | hz'
      · exact le_of_not_le h
      · exact hy z hz'

theorem pairwise_sortByScoreDesc (l : List SearchResult) :
    (sortByScoreDesc l).Pairwise scoreGe := by
  induction l with
  | nil => simp [sortByScoreDesc]
  | cons a rest ih => exact pairwise_insertDesc a _ ih

theorem filter_insertDesc (x : SearchResult) (l : List SearchResult) (s : ℝ) :
    (insertDesc x l).filter (scoreEq s) =
      if x.similarity_score = s then x :: l.filter (scoreEq s)
      else l.filter (scoreEq s) := by
  induction l with
  | nil =>
    by_cases hx : x.similarity_score = s <;> simp [insertDesc, scoreEq, hx]
  | cons y ys ih =>
    by_cases h : y.similarity_score ≤ x.similarity_score
    · rw [insertDesc, if_pos h]
      by_cases hx : x.similarity_score = s <;> simp [scoreEq, hx, List.filter_cons]
    · rw [insertDesc, if_neg h]
      by_cases hx : x.similarity_score = s
      · have hy : ¬ y.similarity_score = s := by
          intro hys
          exact h (by rw [hys, hx])
        simp [List.filter_cons, scoreEq, hy, ih, hx]
      · by_cases hy : y.similarity_score = s <;>
          simp [List.filter_cons, scoreEq, hy, ih, hx]

theorem filter_sortByScoreDesc (l : List SearchResult) (s : ℝ) :
    (sortByScoreDesc l).filter (scoreEq s) = l.filter (scoreEq s) := by
  induction l with
  | nil => rfl
  | cons a rest ih =>
    rw [sortByScoreDesc, filter_insertDesc]
    by_cases ha : a.similarity_score = s <;> simp [List.filter_cons, scoreEq, ha, ih]

theorem filter_take_isPrefix (l : List SearchResult) (n : Nat) (p : SearchResult → Bool) :
    List.IsPrefix ((l.take n).filter p) (l.filter p) := by
  conv_rhs => rw [← List.take_append_drop n l]
  rw [List.filter_append]
  exact ⟨_, rfl⟩

/-- Claim C5: the result list of `searchVectorStore` is always sorted
non-increasingly by `similarity_score`, and — the sort being stable and
preceded by the in-order map over the store — results of equal score appear
in their original store (insertion) order: for every score value, the
equal-score results form a prefix of the equal-score entries of the scored,
filtered store in store order. -/
theorem claim_C5 :
    (∀ (embedResult : Except SearchFailure (List ℝ))
       (storeFile : Option (Except SearchFailure VectorStore)) (ctx : Option Str)
       (config : Config),
       (searchVectorStore embedResult storeFile ctx config).Pairwise scoreGe) ∧
    (∀ (q : List ℝ) (vs : VectorStore) (ctx : Option Str) (config : Config) (s : ℝ),
       List.IsPrefix
         ((searchVectorStore (.ok q) (some (.ok vs)) ctx config).filter (scoreEq s))
         ((consideredResults q vs ctx).filter (scoreEq s))) := by
  constructor
  · intro embedResult storeFile ctx config
    match embedResult with
    | .error e => exact List.Pairwise.nil
    | .ok q =>
      match storeFile with
      | none => exact List.Pairwise.nil
      | some (.error e) => exact List.Pairwise.nil
      | some (.ok vs) =>
        exact (pairwise_sortByScoreDesc (consideredResults q vs ctx)).sublist
          (List.take_sublist 5 _)
  · intro q vs ctx config s
    have h1 := filter_take_isPrefix (sortByScoreDesc (consideredResults q vs ctx)) 5 (scoreEq s)
    rw [filter_sortByScoreDesc] at h1
    exact h1

/-! ## Claim C7 -/

theorem sumSq_nonneg (v : List ℝ) : 0 ≤ sumSq v := by
  induction v with
  | nil => simp [sumSq]
  | cons x xs ih =>
    simp only [sumSq, List.map_cons, List.sum_cons] at ih ⊢
    nlinarith [sq_nonneg x]

theorem cauchySchwarz_list (a : List ℝ) : ∀ b : List ℝ,
    (dotProduct a b) ^ 2 ≤ sumSq a * sumSq b := by
  induction a with
  | nil =>
    intro b
    simp [dotProduct, sumSq]
  | cons x xs ih =>
    intro b
    match b with
    | [] => simp [dotProduct, sumSq]
    | y :: ys =>
      have h := ih ys
      have hA := sumSq_nonneg xs
      have hB := sumSq_nonneg ys
      simp only [dotProduct, sumSq, List.zipWith_cons_cons, List.map_cons,
        List.sum_cons] at h hA hB ⊢
      rcases eq_or_lt_of_le hA with hA0 | hApos
      · have hd : (List.zipWith (fun u v => u * v) xs ys).sum = 0 := by
          nlinarith [sq_nonneg (List.zipWith (fun u v => u * v) xs ys).sum]
        rw [hd]
        nlinarith [sq_nonneg x, sq_nonneg y, mul_nonneg (sq_nonneg x) hB]
      · have h1 : 0 ≤ (xs.map (fun u => u * u)).sum * (ys.map (fun u => u * u)).sum -
            ((List.zipWith (fun u v => u * v) xs ys).sum) ^ 2 := by linarith
        nlinarith [sq_nonneg ((xs.map (fun u => u * u)).sum * y -
            x * (List.zipWith (fun u v => u * v) xs ys).sum),
          mul_nonneg h1 (sq_nonneg x), mul_nonneg h1 (le_of_lt hApos)]

theorem dotProduct_take (a : List ℝ) : ∀ b : List ℝ,
    dotProduct a b = dotProduct a (b.take a.length) := by
  induction a with
  | nil => intro b; rfl
  | cons x xs ih =>
    intro b
    match b with
    | [] => rfl
    | y :: ys => simp [dotProduct, List.zipWith_cons_cons, List.take_cons] at ih ⊢; exact ih ys

theorem abs_dotProduct_le (a b : List ℝ) :
    |dotProduct a b| ≤ Real.sqrt (sumSq a) * Real.sqrt (sumSq b) := by
  have h := cauchySchwarz_list a b
  calc |dotProduct a b| = Real.sqrt ((dotProduct a b) ^ 2) := by
        rw [Real.sqrt_sq_eq_abs]
    _ ≤ Real.sqrt (sumSq a * sumSq b) := Real.sqrt_le_sqrt h
    _ = Real.sqrt (sumSq a) * Real.sqrt (sumSq b) := Real.sqrt_mul (sumSq_nonneg a) _

theorem cosineSimilarity_bounds (a b : List ℝ) :
    -1 ≤ cosineSimilarity a b ∧ cosineSimilarity a b ≤ 1 := by
  rw [cosineSimilarity]
  have hD : 0 ≤ Real.sqrt (sumSq a) * Real.sqrt (sumSq (b.take a.length)) :=
    mul_nonneg (Real.sqrt_nonneg _) (Real.sqrt_nonneg _)
  have habs : |dotProduct a b| ≤ Real.sqrt (sumSq a) * Real.sqrt (sumSq (b.take a.length)) := by
    rw [dotProduct_take]
    exact abs_dotProduct_le a (b.take a.length)
  rcases eq_or_lt_of_le hD with hD0 | hDpos
  · rw [← hD0, div_zero]
    norm_num
  · have h2 : |dotProduct a b /
        (Real.sqrt (sumSq a) * Real.sqrt (sumSq (b.take a.length)))| ≤ 1 := by
      rw [abs_div, abs_of_pos hDpos]
      exact (div_le_one hDpos).mpr habs
    exact abs_le.mp h2

theorem mem_searchVectorStore_origin {q : List ℝ} {vs : VectorStore} {ctx : Option Str}
    {config : Config} {r : SearchResult} :
    r ∈ searchVectorStore (.ok q) (some (.ok vs)) ctx config →
    ∃ e, e ∈ vs.entries ∧ r = mkSearchResult q e := by
  intro h
  have h2 : r ∈ sortByScoreDesc (consideredResults q vs ctx) :=
    List.take_subset 5 _ h
  have h3 : r ∈ consideredResults q vs ctx := mem_sortByScoreDesc h2
  have h4 : r ∈ vs.entries.map (mkSearchResult q) := by
    rw [consideredResults] at h3
    match ctx with
    | none => exact h3
    | some c =>
      rw [filterByContext] at h3
      by_cases hc : c = []
      · rw [if_pos hc] at h3
        exact h3
      · rw [if_neg hc] at h3
        exact List.mem_of_mem_filter h3
  rcases List.mem_map.mp h4 with ⟨e, he, hr⟩
  exact ⟨e, he, hr.symm⟩

/-- Claim C7: every `similarity_score` of a result of `searchVectorStore`
lies in `[-1, 1]`, and on a successful search every result is the record's
result object whose score is `cosineSimilarity` of the query embedding and
that record's embedding — the dot product divided by the product of the two
Euclidean norms. -/
theorem claim_C7 :
    (∀ (embedResult : Except SearchFailure (List ℝ))
       (storeFile : Option (Except SearchFailure VectorStore)) (ctx : Option Str)
       (config : Config),
       (searchVectorStore embedResult storeFile ctx config).Forall inSimRange) ∧
    (∀ (q : List ℝ) (vs : VectorStore) (ctx : Option Str) (config : Config),
       (searchVectorStore (.ok q) (some (.ok vs)) ctx config).Forall
         (fun r => ∃ e, e ∈ vs.entries ∧ r = mkSearchResult q e)) := by
  constructor
  · intro embedResult storeFile ctx config
    rw [List.forall_iff_forall_mem]
    intro r hr
    match embedResult with
    | .error e => exact absurd hr (by simp [searchVectorStore, searchVectorStoreRun])
    | .ok q =>
      match storeFile with
      | none => exact absurd hr (by simp [searchVectorStore, searchVectorStoreRun])
      | some (.error e) => exact absurd hr (by simp [searchVectorStore, searchVectorStoreRun])
      | some (.ok vs) =>
        rcases mem_searchVectorStore_origin hr with ⟨e, _, hre⟩
        rw [hre]
        exact cosineSimilarity_bounds q e.embedding
  · intro q vs ctx config
    rw [List.forall_iff_forall_mem]
    intro r hr
    exact mem_searchVectorStore_origin hr

/-! ## Helper lemmas about whitespace and the chunker -/

theorem nonWs_append (a b : Str) : nonWs (a ++ b) = nonWs a ++ nonWs b :=
  List.filter_append a b

theorem nonWs_cons_ws {c : Char} (h : isJsWs c = true) (l : Str) :
    nonWs (c :: l) = nonWs l := by
  simp [nonWs, List.filter_cons, h]

theorem nonWs_cons_nws {c : Char} (h : isJsWs c = false) (l : Str) :
    nonWs (c :: l) = c :: nonWs l := by
  simp [nonWs, List.filter_cons, h]

theorem nonWs_dropWhile (f : Char → Bool) (hf : ∀ c, f c = true → isJsWs c = true) :
    ∀ l : Str, nonWs (l.dropWhile f) = nonWs l := by
  intro l
  induction l with
  | nil => rfl
  | cons c rest ih =>
    by_cases hc : f c = true
    · rw [List.dropWhile_cons_of_pos hc, ih, nonWs_cons_ws (hf c hc)]
    · rw [List.dropWhile_cons_of_neg hc]

theorem nonWs_reverse (l : Str) : nonWs l.reverse = (nonWs l).reverse :=
  List.filter_reverse _ _

theorem nonWs_jsTrim (s : Str) : nonWs (jsTrim s) = nonWs s := by
  rw [jsTrim, nonWs_reverse, nonWs_dropWhile isJsWs (fun _ h => h), nonWs_reverse,
    List.reverse_reverse, nonWs_dropWhile isJsWs (fun _ h => h)]

theorem dropWhile_ws_eq_nil {p : Str} (h : nonWs p = []) : p.dropWhile isJsWs = [] := by
  induction p with
  | nil => rfl
  | cons c rest ih =>
    by_cases hc : isJsWs c = true
    · rw [List.dropWhile_cons_of_pos hc]
      exact ih (by rwa [nonWs_cons_ws hc] at h)
    · rw [nonWs_cons_nws (by simpa using hc)] at h
      exact absurd h (by simp)

theorem jsTrim_eq_nil_of_nonWs {p : Str} (h : nonWs p = []) : jsTrim p = [] := by
  rw [jsTrim, dropWhile_ws_eq_nil h]
  rfl

theorem nonWs_eq_nil_of_trim {s : Str} (h : (jsTrim s).length = 0) : nonWs s = [] := by
  rw [← nonWs_jsTrim s, List.length_eq_zero.mp h]
  rfl

theorem nonWs_ne_nil_of_trim {s : Str} (h : ¬ (jsTrim s).length = 0) : nonWs s ≠ [] := by
  intro hn
  exact h (by rw [jsTrim_eq_nil_of_nonWs hn]; rfl)

theorem jsTrim_ne_nil {s : Str} (h : nonWs s ≠ []) : jsTrim s ≠ [] := by
  intro hn
  exact h (by rw [← nonWs_jsTrim s, hn]; rfl)

theorem nonWs_nl2 : nonWs nl2 = [] := rfl

theorem nonWs_nil : nonWs ([] : Str) = [] := rfl

theorem isJsWs_nl : isJsWs '\n' = true := by decide

theorem nonWs_dropWhile_nl (l : Str) :
    nonWs (l.dropWhile (fun d => d = '\n')) = nonWs l :=
  nonWs_dropWhile _ (fun c h => by
    simp at h
    simp [isJsWs, h]) l

theorem nonWs_cons_congr (c : Char) {a b : Str} (h : nonWs a = nonWs b) :
    nonWs (c :: a) = nonWs (c :: b) := by
  by_cases hc : isJsWs c = true
  · rw [nonWs_cons_ws hc, nonWs_cons_ws hc, h]
  · rw [nonWs_cons_nws (by simpa using hc), nonWs_cons_nws (by simpa using hc), h]

theorem revNonWs_cons (x : Str) (rev : List Str) :
    revNonWs (x :: rev) = revNonWs rev ++ nonWs x := by
  simp [revNonWs, nonWs_append]

theorem flatten_consTo (r : List Str) (c : Char) :
    (consTo r c).flatten = c :: r.flatten := by
  match r with
  | [] => rfl
  | p :: ps => rfl

theorem nonWs_paragraphSplitGo : ∀ (fuel : Nat) (cs : Str),
    nonWs (paragraphSplitGo fuel cs).flatten = nonWs cs := by
  intro fuel
  induction fuel with
  | zero => intro cs; simp [paragraphSplitGo]
  | succ fuel ih =>
    intro cs
    match cs with
    | [] => simp [paragraphSplitGo]
    | c :: rest =>
      by_cases hc : c = '\n'
      · subst hc
        match rest with
        | [] =>
          simp only [paragraphSplitGo, ite_self, flatten_consTo]
          exact nonWs_cons_congr _ (ih _)
        | c2 :: rest2 =>
          by_cases hc2 : c2 = '\n'
          · subst hc2
            simp [paragraphSplitGo, ih, nonWs_dropWhile_nl,
              nonWs_cons_ws isJsWs_nl]
          · simp only [paragraphSplitGo, ite_self, if_neg hc2, flatten_consTo]
            exact nonWs_cons_congr _ (ih _)
      · simp only [paragraphSplitGo, if_neg hc, flatten_consTo]
        exact nonWs_cons_congr _ (ih _)

theorem nonWs_paragraphSplit (s : Str) : nonWs (paragraphSplit s).flatten = nonWs s :=
  nonWs_paragraphSplitGo s.length s

theorem nonWs_paraEvents (minS maxS : Nat) : ∀ (ps : List Str) (cur : Str),
    nonWs ((paraEvents minS maxS ps cur).map Prod.fst).flatten =
      nonWs (cur ++ ps.flatten) := by
  intro ps
  induction ps with
  | nil =>
    intro cur
    by_cases hcur : cur = []
    · simp [paraEvents, hcur]
    · simp [paraEvents, hcur]
  | cons p ps ih =>
    intro cur
    by_cases hskip : (jsTrim p).length = 0
    · rw [paraEvents, if_pos hskip, ih]
      have hp : nonWs p = [] := nonWs_eq_nil_of_trim hskip
      simp [nonWs_append, hp]
    · rw [paraEvents, if_neg hskip]
      by_cases hfit : cur.length + p.length ≤ maxS
      · rw [if_pos hfit, ih]
        by_cases hcur : cur = [] <;>
          simp [hcur, nonWs_append, nonWs_nl2]
      · rw [if_neg hfit]
        by_cases hcur : cur = []
        · rw [if_pos hcur]
          rw [List.nil_append, ih]
          simp [hcur, nonWs_append]
        · rw [if_neg hcur]
          simp only [List.map_append, List.flatten_append, List.map_cons, List.map_nil,
            List.flatten_cons, List.flatten_nil, nonWs_append, ih]
          simp [nonWs_append, nonWs_nil]

theorem keptContents_append (a b : List (Str × Bool)) :
    keptContents (a ++ b) = keptContents a ++ keptContents b := by
  simp [keptContents, List.filter_append]

theorem keptContents_single_true (x : Str) {b : Bool} (h : b = true) :
    keptContents [(x, b)] = [x] := by
  simp [keptContents, h]

theorem keptContents_single_false (x : Str) {b : Bool} (h : b = false) :
    keptContents [(x, b)] = [] := by
  simp [keptContents, h]

theorem nonWs_sectionEvents (minS maxS : Nat) (s : Str) :
    nonWs ((sectionEvents minS maxS s).map Prod.fst).flatten = nonWs s := by
  rw [sectionEvents]
  by_cases hskip : (jsTrim s).length = 0
  · rw [if_pos hskip]
    simp [nonWs_eq_nil_of_trim hskip, nonWs_nil]
  · rw [if_neg hskip]
    by_cases hsize : s.length ≤ maxS
    · rw [if_pos hsize]
      simp
    · rw [if_neg hsize, nonWs_paraEvents]
      rw [List.nil_append, nonWs_paragraphSplit]

/-! ## Correspondence between the chunker and its event instrumentation -/

theorem paraLoop_spec (minS maxS : Nat) : ∀ (ps : List Str) (cur : Str) (rev : List Str),
    (cur = [] ∨ nonWs cur ≠ []) →
    revNonWs (paraLoop minS maxS ps cur rev) =
      revNonWs rev ++ nonWs (keptContents (paraEvents minS maxS ps cur)).flatten ∧
    (∀ c ∈ paraLoop minS maxS ps cur rev, c ∈ rev ∨ 0 < c.length) := by
  intro ps
  induction ps with
  | nil =>
    intro cur rev hcur
    by_cases h0 : cur = []
    · subst h0
      rw [paraLoop, paraEvents]
      refine ⟨by simp [keptContents, nonWs_nil], fun c hc => Or.inl (by simpa using hc)⟩
    · have hnw : nonWs cur ≠ [] := hcur.resolve_left h0
      by_cases hmin : minS ≤ cur.length
      · rw [paraLoop, if_pos ⟨h0, hmin⟩, paraEvents, if_neg h0]
        constructor
        · rw [revNonWs_cons, nonWs_jsTrim,
            keptContents_single_true _ (decide_eq_true hmin)]
          simp
        · intro c hc
          rcases List.mem_cons.mp hc with rfl | h
          · exact Or.inr (List.length_pos.mpr (jsTrim_ne_nil hnw))
          · exact Or.inl h
      · rw [paraLoop, if_neg (fun h => hmin h.2), paraEvents, if_neg h0]
        constructor
        · rw [keptContents_single_false _ (decide_eq_false hmin)]
          simp [nonWs_nil]
        · exact fun c hc => Or.inl hc
  | cons p ps ih =>
    intro cur rev hcur
    by_cases hskip : (jsTrim p).length = 0
    · rw [paraLoop, if_pos hskip, paraEvents, if_pos hskip]
      exact ih cur rev hcur
    · have hpnw : nonWs p ≠ [] := nonWs_ne_nil_of_trim hskip
      by_cases hfit : cur.length + p.length ≤ maxS
      · rw [paraLoop, if_neg hskip, if_pos hfit, paraEvents, if_neg hskip, if_pos hfit]
        apply ih
        right
        by_cases h0 : cur = []
        · simpa [h0, nonWs_append, nonWs_nil] using hpnw
        · simp only [if_neg h0, nonWs_append, nonWs_nl2, List.nil_append,
            List.append_eq_nil]
          intro hcontra
          simp only [List.nil_append, List.append_eq_nil] at hcontra
          exact hpnw hcontra.2
      · by_cases hflush : cur ≠ [] ∧ minS ≤ cur.length
        · rw [paraLoop, if_neg hskip, if_neg hfit, if_pos hflush,
            paraEvents, if_neg hskip, if_neg hfit, if_neg hflush.1]
          have hihs := ih p (jsTrim cur :: rev) (Or.inr hpnw)
          constructor
          · rw [hihs.1, revNonWs_cons, nonWs_jsTrim, keptContents_append,
              keptContents_single_true _ (decide_eq_true hflush.2)]
            simp [nonWs_append, List.append_assoc]
          · intro c hc
            rcases hihs.2 c hc with hmem | hlen
            · rcases List.mem_cons.mp hmem with rfl | hmem2
              · exact Or.inr
                  (List.length_pos.mpr (jsTrim_ne_nil (hcur.resolve_left hflush.1)))
              · exact Or.inl hmem2
            · exact Or.inr hlen
        · rw [paraLoop, if_neg hskip, if_neg hfit, if_neg hflush,
            paraEvents, if_neg hskip, if_neg hfit]
          have hihs := ih p rev (Or.inr hpnw)
          constructor
          · rw [hihs.1]
            by_cases h0 : cur = []
            · rw [if_pos h0]
              simp
            · have hmin : ¬ minS ≤ cur.length := fun hm => hflush ⟨h0, hm⟩
              rw [if_neg h0, keptContents_append,
                keptContents_single_false _ (decide_eq_false hmin)]
              simp
          · exact hihs.2

theorem processSection_spec (minS maxS : Nat) (rev : List Str) (s : Str) :
    revNonWs (processSection minS maxS rev s) =
      revNonWs rev ++ nonWs (keptContents (sectionEvents minS maxS s)).flatten ∧
    (∀ c ∈ processSection minS maxS rev s, c ∈ rev ∨ 0 < c.length) := by
  by_cases hskip : (jsTrim s).length = 0
  · rw [show processSection minS maxS rev s = rev by simp [processSection, hskip],
      sectionEvents, if_pos hskip]
    exact ⟨by simp [keptContents, nonWs_nil], fun c hc => Or.inl hc⟩
  · have hnw : nonWs s ≠ [] := nonWs_ne_nil_of_trim hskip
    have htrim : 0 < (jsTrim s).length := Nat.pos_of_ne_zero hskip
    by_cases hsize : s.length ≤ maxS
    · rw [sectionEvents, if_neg hskip, if_pos hsize]
      by_cases hmin : minS ≤ s.length
      · rw [show processSection minS maxS rev s = jsTrim s :: rev by
          simp [processSection, hskip, hsize, hmin]]
        constructor
        · rw [revNonWs_cons, nonWs_jsTrim, keptContents_single_true _ rfl]
          simp
        · intro c hc
          rcases List.mem_cons.mp hc with rfl | h
          · exact Or.inr htrim
          · exact Or.inl h
      · match rev with
        | [] =>
          rw [show processSection minS maxS [] s = jsTrim s :: [] by
            simp [processSection, hskip, hsize, hmin]]
          constructor
          · rw [revNonWs_cons, nonWs_jsTrim, keptContents_single_true _ rfl]
            simp
          · intro c hc
            rcases List.mem_cons.mp hc with rfl | h
            · exact Or.inr htrim
            · exact Or.inl h
        | last :: rest =>
          rw [show processSection minS maxS (last :: rest) s =
              (if last ≠ [] ∧ last.length + s.length ≤ maxS then
                (last ++ nl2 ++ jsTrim s) :: rest
              else jsTrim s :: last :: rest) by
            simp [processSection, hskip, hsize, hmin]]
          by_cases hmerge : last ≠ [] ∧ last.length + s.length ≤ maxS
          · rw [if_pos hmerge]
            constructor
            · rw [revNonWs_cons, revNonWs_cons, keptContents_single_true _ rfl]
              simp [nonWs_append, nonWs_nl2, nonWs_jsTrim, List.append_assoc]
            · intro c hc
              rcases List.mem_cons.mp hc with rfl | h
              · refine Or.inr ?_
                simp [nl2]
              · exact Or.inl (List.mem_cons_of_mem _ h)
          · rw [if_neg hmerge]
            constructor
            · rw [revNonWs_cons, nonWs_jsTrim, keptContents_single_true _ rfl]
              simp
            · intro c hc
              rcases List.mem_cons.mp hc with rfl | h
              · exact Or.inr htrim
              · exact Or.inl h
    · rw [show processSection minS maxS rev s = paraLoop minS maxS (paragraphSplit s) [] rev
        by simp [processSection, hskip, hsize], sectionEvents, if_neg hskip, if_neg hsize]
      exact paraLoop_spec minS maxS (paragraphSplit s) [] rev (Or.inl rfl)

theorem foldl_processSection_spec (minS maxS : Nat) :
    ∀ (sections : List Str) (rev : List Str),
    revNonWs (sections.foldl (processSection minS maxS) rev) =
      revNonWs rev ++
        nonWs (keptContents ((sections.map (sectionEvents minS maxS)).flatten)).flatten ∧
    (∀ c ∈ sections.foldl (processSection minS maxS) rev, c ∈ rev ∨ 0 < c.length) := by
  intro sections
  induction sections with
  | nil =>
    intro rev
    exact ⟨by simp [keptContents, nonWs_nil], fun c hc => Or.inl hc⟩
  | cons s ss ih =>
    intro rev
    rw [List.foldl_cons]
    have hsec := processSection_spec minS maxS rev s
    have hss := ih (processSection minS maxS rev s)
    constructor
    · rw [hss.1, hsec.1, List.map_cons, List.flatten_cons, keptContents_append,
        List.flatten_append, nonWs_append, List.append_assoc]
    · intro c hc
      rcases hss.2 c hc with hmem | hlen
      · exact hsec.2 c hmem
      · exact Or.inr hlen

theorem docEvents_cover (d : Document) (minS maxS : Nat) :
    nonWs ((docEvents d minS maxS).map Prod.fst).flatten =
      nonWs (headerSplits d.content).flatten := by
  rw [docEvents]
  generalize headerSplits d.content = sections
  induction sections with
  | nil => rfl
  | cons s ss ih =>
    simp only [List.map_cons, List.flatten_cons, List.map_append, List.flatten_append,
      nonWs_append, ih, nonWs_sectionEvents]

/-! ## Claim C4 -/

/-- Claim C4 is false as stated: the header split discards header lines,
whose non-whitespace characters (here `#T`) are not covered by any
exception the claim grants; on `"# T\nabcd"` the chunker keeps only
`abcd`. -/
theorem claim_C4_counterexample : ¬ c4ClaimAsStated := by
  intro h
  have h2 := (h dHeader 1 5 (by norm_num)).2.1
  exact absurd h2 (by decide)

/-- Claim C4, amended (header lines are additionally discarded, as §4.1
step 1 states). -/
theorem claim_C4 : ∀ (d : Document) (minS maxS : Nat), minS < maxS →
    c4AmendedProp d minS maxS := by
  intro d minS maxS _
  have h := foldl_processSection_spec minS maxS (headerSplits d.content) []
  refine ⟨?_, docEvents_cover d minS maxS, ?_⟩
  · intro c hc
    rcases h.2 c (List.mem_reverse.mp hc) with habs | hpos
    · exact absurd habs (List.not_mem_nil c)
    · exact hpos
  · have h1 := h.1
    rw [show revNonWs (List.foldl (processSection minS maxS) [] (headerSplits d.content)) =
        nonWs (splitIntoChunks d minS maxS).flatten from rfl] at h1
    rw [h1]
    rw [show revNonWs [] = [] from rfl, List.nil_append, docEvents]

/-- Witness for C4 at the concrete header document with bounds `1 < 5`. -/
theorem claim_C4_witness : 1 < 5 ∧ c4AmendedProp dHeader 1 5 :=
  ⟨by norm_num, claim_C4 dHeader 1 5 (by norm_num)⟩

/-! ## Claim C6 -/

/-- Claim C6 is false as stated: with `min 5`, `max 10`, previous chunk
`"abcdef"` and section `"\nabc"`, the source's guard
`lastChunk.length + split.length ≤ maxSize` (6 + 4 = 10) passes, yet the
combined chunk `"abcdef\n\nabc"` has length 11 > 10. -/
theorem claim_C6_counterexample : ¬ c6ClaimAsStated := by
  intro h
  have h2 := h 5 10 "abcdef".data [] "\nabc".data (by norm_num) (by decide) (by decide)
  exact absurd h2 (by decide)

/-- Claim C6, amended (see `c6AmendedProp`). -/
theorem claim_C6 :
    ∀ (minS maxS : Nat) (last : Str) (rest : List Str) (split : Str),
      jsTrim split ≠ [] →
      split.length < minS →
      split.length ≤ maxS →
      c6AmendedProp minS maxS last rest split := by
  intro minS maxS last rest split h1 h2 h3
  have hskip : ¬ (jsTrim split).length = 0 := by
    simpa [List.length_eq_zero] using h1
  have hmin : ¬ minS ≤ split.length := Nat.not_le.mpr h2
  have heq : processSection minS maxS (last :: rest) split =
      (if last ≠ [] ∧ last.length + split.length ≤ maxS
       then (last ++ nl2 ++ jsTrim split) :: rest
       else jsTrim split :: last :: rest) := by
    simp [processSection, hskip, h3, hmin]
  refine ⟨heq, ?_⟩
  rw [heq]
  by_cases hmerge : last ≠ [] ∧ last.length + split.length ≤ maxS
  · rw [if_pos hmerge, revNonWs_cons, revNonWs_cons]
    simp [nonWs_append, nonWs_nl2, nonWs_jsTrim, List.append_assoc]
  · rw [if_neg hmerge, revNonWs_cons, nonWs_jsTrim]

/-- Witness for C6 at the concrete merge instance. -/
theorem claim_C6_witness : c6AmendedProp 5 10 "abcdef".data [] "\nabc".data :=
  claim_C6 5 10 "abcdef".data [] "\nabc".data (by decide) (by decide) (by decide)

end DepCtx
